import Mathlib

/-!
Verification development for the YouTube-media cache service
(`search.py`, `utils.py`, `models.py`, `telegram_bot_sync.py`, `routes.py`).

The Python code is shallowly embedded over `List Char` / `String`, with the
SQLAlchemy table `telegram_cache` modelled as a `List TelegramCache` in scan
order (the order `TelegramCache.query.all()` yields rows), timestamps as `Nat`,
and the MD5 digest kept as an abstract parameter `md5 : String → String`
(no property of the digest is used by the matching logic).  Python strings are
modelled at ASCII granularity: `str.lower`, `str.isalnum`, `\w` and `\s` are
embedded by their ASCII meaning, which agrees with Python on every ASCII
string.
-/

/-- `\s` of Python's `re` module: space, tab, newline, carriage return,
vertical tab, form feed. -/
def pySpace (c : Char) : Bool :=
  c == ' ' || c == '\t' || c == '\n' || c == '\r' || c == '\x0b' || c == '\x0c'

/-- `\w` of Python's `re` module (ASCII): letters, digits and underscore. -/
def pyIsWord (c : Char) : Bool :=
  c.isAlphanum || c == '_'

/-- The 26 uppercase/lowercase ASCII letter pairs. -/
def ucPairs : List (Char × Char) :=
  [('A','a'), ('B','b'), ('C','c'), ('D','d'), ('E','e'), ('F','f'), ('G','g'),
   ('H','h'), ('I','i'), ('J','j'), ('K','k'), ('L','l'), ('M','m'), ('N','n'),
   ('O','o'), ('P','p'), ('Q','q'), ('R','r'), ('S','s'), ('T','t'), ('U','u'),
   ('V','v'), ('W','w'), ('X','x'), ('Y','y'), ('Z','z')]

/-- ASCII lowercasing of a single character, as `str.lower()` acts on
ASCII input: uppercase letters map to their lowercase pair, everything else
is unchanged. -/
def pyToLower (c : Char) : Char :=
  ((ucPairs.find? (fun p => p.1 == c)).map Prod.snd).getD c

/-- `str.lower()` (ASCII model). -/
def pyLower (s : String) : String :=
  String.mk (s.data.map pyToLower)

/-- `str.strip()`: drop whitespace from both ends. -/
def pyStrip (l : List Char) : List Char :=
  ((l.dropWhile pySpace).reverse.dropWhile pySpace).reverse

/-- State machine for `re.sub(r'\s+', ' ', s)`: every maximal whitespace run
is replaced by a single space.  The flag records whether the previous
character was whitespace. -/
def collapseWsGo : Bool → List Char → List Char
  | _, [] => []
  | inSp, c :: cs =>
    if pySpace c then
      (if inSp then collapseWsGo true cs else ' ' :: collapseWsGo true cs)
    else c :: collapseWsGo false cs

def collapseWs (l : List Char) : List Char := collapseWsGo false l

/-- `str.split()` with no separator: split on whitespace runs, dropping
empty chunks.  `acc` holds the current word reversed. -/
def splitWsAux : List Char → List Char → List String
  | [], acc => if acc.isEmpty then [] else [String.mk acc.reverse]
  | c :: cs, acc =>
    if pySpace c then
      (if acc.isEmpty then splitWsAux cs [] else String.mk acc.reverse :: splitWsAux cs [])
    else splitWsAux cs (c :: acc)

def pySplit (s : String) : List String := splitWsAux s.data []

/-- `' '.join(ws)`. -/
def joinSp : List String → String
  | [] => ""
  | [w] => w
  | w :: w2 :: ws => w ++ " " ++ joinSp (w2 :: ws)

/-- `str.isalnum()` (ASCII model): nonempty and every character a letter or
digit. -/
def pyIsAlnum (s : String) : Bool :=
  !s.data.isEmpty && s.data.all Char.isAlphanum

/-!
## `difflib.SequenceMatcher(None, a, b).ratio()`

Faithful embedding of CPython's `difflib` for `isjunk=None`,
`autojunk=True` (the defaults used throughout the repository).

* `idxList b c` is `b2j[c]` before the autojunk deletion: the ascending
  list of positions of `c` in `b`.
* `popularB` is the autojunk rule: when `len(b) >= 200`, an element
  occurring more than `len(b) // 100 + 1` times is deleted from `b2j`.
* `b2j b c` is the final `b2j.get(c, [])`.
-/

def idxList (b : List Char) (c : Char) : List Nat :=
  (List.range b.length).filter (fun j => b.getD j ' ' == c)

def popularB (b : List Char) (c : Char) : Bool :=
  decide (200 ≤ b.length) && decide (b.length / 100 + 1 < (idxList b c).length)

def b2j (b : List Char) (c : Char) : List Nat :=
  if popularB b c then [] else idxList b c

/-- State threaded through one row `i` of `find_longest_match`'s main loop:
`cur` is `newj2len` (total function, absent keys read as `0`), and
`(bi, bj, bs)` is `(besti, bestj, bestsize)`. -/
structure RowSt where
  cur : Nat → Nat
  bi : Nat
  bj : Nat
  bs : Nat

/-- One iteration of the inner loop: `k = newj2len[j] = j2len.get(j-1, 0) + 1`
(`prev` is the previous row's `j2len`; `j2len.get(-1, 0)` is `0`), then the
best-match update `if k > bestsize`.  The subtractions `i + 1 - k` and
`j + 1 - k` agree with Python's `i-k+1`, `j-k+1` because a chain ending at
`(i, j)` always has `k ≤ i + 1` and `k ≤ j + 1`. -/
def innerStep (i : Nat) (prev : Nat → Nat) (st : RowSt) (j : Nat) : RowSt :=
  let k := (if j = 0 then 0 else prev (j - 1)) + 1
  let cur' := fun j' => if j' = j then k else st.cur j'
  if st.bs < k then ⟨cur', i + 1 - k, j + 1 - k, k⟩ else ⟨cur', st.bi, st.bj, st.bs⟩

/-- Full state across rows: `prev` is the finished row's `j2len`. -/
structure FlmSt where
  prev : Nat → Nat
  bi : Nat
  bj : Nat
  bs : Nat

/-- One row `i` of the main loop.  The processed column indices are
`b2j.get(a[i], [])` restricted by `if j < blo: continue` and
`if j >= bhi: break` (the list is ascending, so the `break` is a
`takeWhile`). -/
def rowStep (a b : List Char) (blo bhi : Nat) (st : FlmSt) (i : Nat) : FlmSt :=
  let js := ((b2j b (a.getD i ' ')).filter (fun j => decide (blo ≤ j))).takeWhile
      (fun j => decide (j < bhi))
  let r := js.foldl (innerStep i st.prev) ⟨fun _ => 0, st.bi, st.bj, st.bs⟩
  ⟨r.cur, r.bi, r.bj, r.bs⟩

/-- The main dynamic-programming loop of `find_longest_match` over rows
`alo, ..., ahi-1`, starting from `besti, bestj, bestsize = alo, blo, 0`. -/
def flmMain (a b : List Char) (alo ahi blo bhi : Nat) : FlmSt :=
  (List.range' alo (ahi - alo)).foldl (rowStep a b blo bhi) ⟨fun _ => 0, alo, blo, 0⟩

/-- First extension loop: grow the match leftwards over equal, non-junk
elements.  With `isjunk=None` the junk set is empty, so only the equality
test remains.  `fuel` bounds the iteration count (`besti` decreases each
round, so `fuel = besti` suffices). -/
def extLeft (a b : List Char) (alo blo : Nat) : Nat → Nat × Nat × Nat → Nat × Nat × Nat
  | 0, st => st
  | fuel + 1, (bi, bj, bs) =>
    if alo < bi ∧ blo < bj ∧ a.getD (bi - 1) ' ' = b.getD (bj - 1) ' ' then
      extLeft a b alo blo fuel (bi - 1, bj - 1, bs + 1)
    else (bi, bj, bs)

/-- Second extension loop: grow the match rightwards over equal, non-junk
elements (`fuel = ahi` suffices since `besti + bestsize` stays below `ahi`). -/
def extRight (a b : List Char) (ahi bhi : Nat) : Nat → Nat × Nat × Nat → Nat × Nat × Nat
  | 0, st => st
  | fuel + 1, (bi, bj, bs) =>
    if bi + bs < ahi ∧ bj + bs < bhi ∧ a.getD (bi + bs) ' ' = b.getD (bj + bs) ' ' then
      extRight a b ahi bhi fuel (bi, bj, bs + 1)
    else (bi, bj, bs)

/-- `SequenceMatcher.find_longest_match(alo, ahi, blo, bhi)`.  The third and
fourth `while` loops of the source extend over junk elements only; with
`isjunk=None` the junk set is empty and they never run, so they are omitted. -/
def find_longest_match (a b : List Char) (alo ahi blo bhi : Nat) : Nat × Nat × Nat :=
  let m := flmMain a b alo ahi blo bhi
  let l := extLeft a b alo blo m.bi (m.bi, m.bj, m.bs)
  extRight a b ahi bhi ahi l

/-- Total size of all matching blocks: the recursion of
`get_matching_blocks` (find the longest match, recurse on both sides).
Only the sum of the block sizes is needed for `ratio`, and that sum does not
depend on the queue order or on the final merge of adjacent blocks.  The
combined window size shrinks at every recursive call, so
`fuel = len(a) + len(b) + 1` is always sufficient. -/
def matchSum (a b : List Char) : Nat → Nat → Nat → Nat → Nat → Nat
  | 0, _, _, _, _ => 0
  | fuel + 1, alo, ahi, blo, bhi =>
    match find_longest_match a b alo ahi blo bhi with
    | (i, j, k) =>
      if k = 0 then 0
      else
        k + (if alo < i ∧ blo < j then matchSum a b fuel alo i blo j else 0)
          + (if i + k < ahi ∧ j + k < bhi then matchSum a b fuel (i + k) ahi (j + k) bhi else 0)

/-- `SequenceMatcher(None, a, b).ratio()`: `2.0 * M / T`, or `1.0` when
`T = len(a) + len(b)` is zero. -/
def ratio (sa sb : String) : ℚ :=
  let a := sa.data
  let b := sb.data
  if a.length + b.length = 0 then 1
  else 2 * (matchSum a b (a.length + b.length + 1) 0 a.length 0 b.length : ℚ)
        / (a.length + b.length)

/-!
## Data model (`models.py`)

`TelegramCache` (table `telegram_cache`).  `query_hash` is declared
`unique=True` in the schema.  The nullable text columns are modelled as
`String` (the writer in `telegram_bot_sync.py` always stores `''` defaults).
Timestamps are abstract ticks (`Nat`). -/
structure TelegramCache where
  id : Nat
  query_hash : String
  original_query : String
  youtube_id : String
  title : String
  duration : String
  file_id : String
  file_unique_id : String
  file_type : String
  telegram_message_id : Int
  created_at : Nat
  last_accessed : Nat
  access_count : Nat
deriving Repr, DecidableEq

/-!
## `search.py` — `QueryMatcher`
-/

/-- `QueryMatcher.stop_words`. -/
def stopWords : List String :=
  ["the", "a", "an", "and", "or", "but", "in", "on", "at", "to", "for",
   "of", "with", "by", "song", "music", "video", "audio", "mp3", "mp4"]

/-- The text after `re.sub(r'[^\w\s-]', ' ', q)`, `re.sub(r'\s+', ' ', ·)`,
`.lower().strip()` — i.e. the value of the local `query` in
`sanitize_query` just before the stop-word filter. -/
def sanitizePre (q : String) : String :=
  String.mk (pyStrip ((collapseWs (q.data.map
    (fun c => if pyIsWord c || pySpace c || c == '-' then c else ' '))).map pyToLower))

/-- `QueryMatcher.sanitize_query`: normalize, split, drop stop words, and
fall back to the pre-filter text when the filter removes every token. -/
def sanitize_query (q : String) : String :=
  let pre := sanitizePre q
  let filtered := (pySplit pre).filter (fun w => !(stopWords.contains w))
  if filtered.isEmpty then pre else joinSp filtered

/-- `QueryMatcher.generate_query_hash`: the MD5 hex digest of the sanitized
query.  The digest function is kept abstract. -/
def generate_query_hash (md5 : String → String) (q : String) : String :=
  md5 (sanitize_query q)

/-- Stable insertion of `x` into a list already sorted by `key` descending:
`x` goes in front of the first element whose key does not exceed `x`'s. -/
def insertDescBy {α : Type} (key : α → ℚ) (x : α) : List α → List α
  | [] => [x]
  | y :: ys => if key y ≤ key x then x :: y :: ys else y :: insertDescBy key x ys

/-- `list.sort(key=..., reverse=True)`: Python's sort is stable, so its
result is the unique permutation that is nonincreasing by key and keeps
equal-key elements in input order; stable insertion sort computes exactly
that permutation. -/
def sortDescBy {α : Type} (key : α → ℚ) : List α → List α
  | [] => []
  | x :: xs => insertDescBy key x (sortDescBy key xs)

/-- An element of the list built by `find_similar_queries`. -/
structure SimilarEntry where
  cache_entry : TelegramCache
  similarity : ℚ
  original_query : String
deriving Repr, DecidableEq

/-- `QueryMatcher.find_similar_queries(query, threshold)`: score every cached
row by `SequenceMatcher` ratio of the sanitized strings, keep those with
`similarity >= threshold`, sort by similarity descending. -/
def find_similar_queries (q : String) (threshold : ℚ) (store : List TelegramCache) :
    List SimilarEntry :=
  let sq := sanitize_query q
  sortDescBy (fun x => x.similarity)
    ((store.map (fun e =>
        ⟨e, ratio sq (sanitize_query e.original_query), e.original_query⟩)).filter
      (fun x => decide (threshold ≤ x.similarity)))

/-- `QueryMatcher.extract_keywords`: tokens of the sanitized query longer
than 2 characters that are not stop words. -/
def extract_keywords (q : String) : List String :=
  (pySplit (sanitize_query q)).filter
    (fun w => decide (2 < w.length) && !(stopWords.contains w))

/-- An element of the list built by `match_by_keywords`.
`matched_keywords` is `list(set(keywords) & set(cached_keywords))`; only its
length matters downstream, so the deduplicated intersection is kept in
first-occurrence order. -/
structure KeywordMatch where
  cache_entry : TelegramCache
  match_ratio : ℚ
  matched_keywords : List String
deriving Repr, DecidableEq

/-- `QueryMatcher.match_by_keywords(query, min_matches)`: require at least
`min_matches` query keywords, score each row by
`len(set ∩ set) / len(keywords)`, keep rows with at least `min_matches`
common keywords, sort by ratio descending. -/
def match_by_keywords (q : String) (min_matches : Nat) (store : List TelegramCache) :
    List KeywordMatch :=
  let keywords := extract_keywords q
  if keywords.length < min_matches then []
  else
    sortDescBy (fun x => x.match_ratio)
      ((store.filterMap (fun e =>
        let common := (keywords.dedup).filter (fun w => (extract_keywords e.original_query).contains w)
        if min_matches ≤ common.length then
          some ⟨e, (common.length : ℚ) / keywords.length, common⟩
        else none)))

/-- The tiers of the match cascade (`match_type` strings of the source). -/
inductive MatchType where
  | exact
  | high_similarity
  | keyword
  | low_similarity
deriving Repr, DecidableEq

/-- The dictionary returned by `comprehensive_search`. -/
structure SearchResult where
  cache_entry : TelegramCache
  match_type : MatchType
  confidence : ℚ
deriving Repr, DecidableEq

/-- `QueryMatcher.comprehensive_search`: exact hash lookup, then similarity
at threshold 0.9, then keyword matching, then similarity at threshold 0.7.
`TelegramCache.query.filter_by(query_hash=·).first()` is the first row of
the scan whose `query_hash` matches. -/
def comprehensive_search (md5 : String → String) (query : String)
    (store : List TelegramCache) : Option SearchResult :=
  let query_hash := generate_query_hash md5 query
  match store.find? (fun r => r.query_hash == query_hash) with
  | some exact => some ⟨exact, .exact, 1⟩
  | none =>
    match find_similar_queries query (9/10) store with
    | sq :: _ => some ⟨sq.cache_entry, .high_similarity, sq.similarity⟩
    | [] =>
      match match_by_keywords query 2 store with
      | km :: _ => some ⟨km.cache_entry, .keyword, km.match_ratio⟩
      | [] =>
        match find_similar_queries query (7/10) store with
        | sq :: _ => some ⟨sq.cache_entry, .low_similarity, sq.similarity⟩
        | [] => none

/-!
## `utils.py` — `extract_youtube_id`
-/

/-- The character class `[a-zA-Z0-9_-]` of the video-id patterns. -/
def isIdChar (c : Char) : Bool :=
  c.isAlphanum || c == '_' || c == '-'

/-- The capture group `([a-zA-Z0-9_-]{11})`: exactly 11 class characters at
the front of `cs`, or no match. -/
def take11Ids (cs : List Char) : Option (List Char) :=
  let g := cs.take 11
  if g.length = 11 && g.all isIdChar then some g else none

/-- The literal alternatives of the first pattern
`(?:youtube\.com/watch\?v=|youtu\.be/|youtube\.com/embed/)`, in source
order. -/
def p1alts : List (List Char) :=
  ["youtube.com/watch?v=".data, "youtu.be/".data, "youtube.com/embed/".data]

/-- At a fixed position, try each literal alternative in order; on a literal
match whose capture group fails, the regex engine backtracks into the next
alternative. -/
def tryAlts : List (List Char) → List Char → Option (List Char)
  | [], _ => none
  | p :: ps, cs =>
    if p.isPrefixOf cs then
      match take11Ids (cs.drop p.length) with
      | some g => some g
      | none => tryAlts ps cs
    else tryAlts ps cs

/-- `re.search` with the first pattern: leftmost starting position wins. -/
def searchP1 : List Char → Option (List Char)
  | [] => none
  | c :: cs =>
    match tryAlts p1alts (c :: cs) with
    | some g => some g
    | none => searchP1 cs

/-- The literal head of the second pattern `youtube\.com/watch\?`. -/
def p2lit : List Char := "youtube.com/watch?".data

/-- Second pattern `youtube\.com/watch\?.*v=([a-zA-Z0-9_-]{11})` anchored at
one position: the greedy `.*` consumes as much as possible, so among all gap
lengths `m` whose gap is newline-free and is followed by `v=` and a full
capture group, the largest is taken. -/
def tryP2At (cs : List Char) : Option (List Char) :=
  if p2lit.isPrefixOf cs then
    let rest := cs.drop p2lit.length
    let good := fun m => ((rest.take m).all (fun c => !(c == '\n')))
        && ("v=".data.isPrefixOf (rest.drop m))
        && (take11Ids (rest.drop (m + 2))).isSome
    match ((List.range (rest.length + 1)).filter good).getLast? with
    | some m => take11Ids (rest.drop (m + 2))
    | none => none
  else none

/-- `re.search` with the second pattern: leftmost starting position wins. -/
def searchP2 : List Char → Option (List Char)
  | [] => none
  | c :: cs =>
    match tryP2At (c :: cs) with
    | some g => some g
    | none => searchP2 cs

/-- `utils.extract_youtube_id`: the two URL patterns in order, then
`re.match(r'^[a-zA-Z0-9_-]{11}$', url)` returning the input itself, else
`None`.  `if not url` catches the empty string. -/
def extract_youtube_id (url : String) : Option String :=
  if url = "" then none
  else
    match searchP1 url.data with
    | some g => some (String.mk g)
    | none =>
      match searchP2 url.data with
      | some g => some (String.mk g)
      | none =>
        if url.length = 11 && url.data.all isIdChar then some url else none

/-!
## `telegram_bot_sync.py` — `TelegramStorageSync`
-/

/-- `TelegramStorageSync._calculate_similarity`:
`difflib.SequenceMatcher(None, text1, text2).ratio()`. -/
def _calculate_similarity (text1 text2 : String) : ℚ :=
  ratio text1 text2

/-- Python's `sub in s` on strings: some suffix of `s` starts with `sub`. -/
def containsSeq (sub : List Char) : List Char → Bool
  | [] => sub.isPrefixOf []
  | c :: cs => sub.isPrefixOf (c :: cs) || containsSeq sub cs

/-- `TelegramStorageSync._extract_video_id`: substring splitting on
`'v='` / `'youtu.be/'`; the guards make the `[1]` indexing safe, matching
the `try/except` of the source. -/
def _extract_video_id (url : String) : Option String :=
  if containsSeq "youtube.com/watch?v=".data url.data then
    some ((((url.splitOn "v=").getD 1 "").splitOn "&").headD "")
  else if containsSeq "youtu.be/".data url.data then
    some ((((url.splitOn "youtu.be/").getD 1 "").splitOn "?").headD "")
  else none

/-- `TelegramStorageSync._search_database_cache`: raw-lowercase hash lookup,
then the 11-character `isalnum` external-id lookup, then URL id extraction,
then the fuzzy scan over titles (`> 0.6`) and original queries (`> 0.7`). -/
def _search_database_cache (md5 : String → String) (q : String)
    (store : List TelegramCache) : Option TelegramCache :=
  let query_hash := md5 (pyLower q)
  match store.find? (fun r => r.query_hash == query_hash) with
  | some c => some c
  | none =>
    match (if q.length = 11 && pyIsAlnum q then
            store.find? (fun r => r.youtube_id == q) else none) with
    | some c => some c
    | none =>
      match (match _extract_video_id q with
             | some vid => store.find? (fun r => r.youtube_id == vid)
             | none => none) with
      | some c => some c
      | none =>
        store.find? (fun e =>
          decide ((3 : ℚ)/5 < _calculate_similarity (pyLower q) (pyLower e.title))
          || decide ((7 : ℚ)/10 < _calculate_similarity (pyLower q) (pyLower e.original_query)))

/-- The subset of `media_info` read by `_save_to_cache` (all keys accessed
with `.get` and a default, hence optional). -/
structure MediaInfo where
  original_query : Option String
  title : Option String
  youtube_id : Option String
  duration : Option String
deriving Repr, DecidableEq

/-- The dictionary returned by the Telegram upload helpers. -/
structure UploadResult where
  file_id : String
  file_unique_id : String
  message_id : Int
deriving Repr, DecidableEq

/-- `media_info.get('original_query', media_info.get('title', ''))`. -/
def cacheQueryOf (m : MediaInfo) : String :=
  m.original_query.getD (m.title.getD "")

/-- `TelegramStorageSync._save_to_cache` with an explicit commit outcome:
compute the raw-lowercase hash, skip the insert when a row with that hash
already exists, otherwise append the new row.  A failing commit lands in the
`except` branch, which rolls the session back (store unchanged) and returns
normally — no exception escapes.  `newId` is the database-assigned primary
key of the fresh row. -/
def save_to_cacheE (md5 : String → String) (m : MediaInfo) (up : UploadResult)
    (file_type : String) (now newId : Nat) (commitOk : Bool)
    (store : List TelegramCache) : List TelegramCache :=
  let query := cacheQueryOf m
  let query_hash := md5 (pyLower query)
  if (store.find? (fun r => r.query_hash == query_hash)).isSome then store
  else if commitOk then
    store ++ [{ id := newId, query_hash := query_hash, original_query := query,
                youtube_id := m.youtube_id.getD "", title := m.title.getD "Unknown Title",
                duration := m.duration.getD "", file_id := up.file_id,
                file_unique_id := up.file_unique_id, file_type := file_type,
                telegram_message_id := up.message_id, created_at := now,
                last_accessed := now, access_count := 0 }]
  else store

/-- `_save_to_cache` on the normal path (commit succeeds). -/
def save_to_cache (md5 : String → String) (m : MediaInfo) (up : UploadResult)
    (file_type : String) (now newId : Nat) (store : List TelegramCache) :
    List TelegramCache :=
  save_to_cacheE md5 m up file_type now newId true store

/-!
## `routes.py` — the cache-facing fragments of the endpoints
-/

/-- `comprehensive_search` against a store whose reads may fail
(`search.py` installs no exception handler, so a failing read propagates
out of the cascade). -/
def comprehensive_searchE (md5 : String → String) (q : String)
    (db : Except Unit (List TelegramCache)) : Except Unit (Option SearchResult) :=
  match db with
  | .error e => .error e
  | .ok store => .ok (comprehensive_search md5 q store)

/-- Observable outcome of the cache phase of `extract_media`. -/
inductive ExtractOutcome where
  | cachedHit (res : SearchResult)
  | proceedToExtraction
  | internalError
deriving Repr, DecidableEq

/-- The cache phase of `extract_media` over a fallible store: a raised
store error reaches the endpoint's catch-all `except Exception`
(routes.py lines 221-226), which answers HTTP 500, so a read failure ends
the request instead of falling through to extraction. -/
def extract_media_cachePhase (md5 : String → String) (q : String)
    (db : Except Unit (List TelegramCache)) : ExtractOutcome :=
  match comprehensive_searchE md5 q db with
  | .error _ => .internalError
  | .ok (some res) => .cachedHit res
  | .ok none => .proceedToExtraction

/-!
## General lemmas about the embedded operations
-/

/-- In a store whose `query_hash` column is unique, `filter_by(query_hash=h)`
finds exactly the member carrying `h`. -/
theorem find?_of_mem_unique (store : List TelegramCache) (r : TelegramCache) (h : String)
    (hu : store.Pairwise (fun x y => x.query_hash ≠ y.query_hash))
    (hr : r ∈ store) (hh : r.query_hash = h) :
    store.find? (fun e => e.query_hash == h) = some r := by
  induction store with
  | nil => cases hr
  | cons a t ih =>
    rcases List.mem_cons.mp hr with rfl | hrt
    · exact List.find?_cons_of_pos _ (by simp [hh])
    · have hne : a.query_hash ≠ r.query_hash :=
        (List.pairwise_cons.mp hu).1 r hrt
      refine (List.find?_cons_of_neg _ ?_).trans
        (ih (List.pairwise_cons.mp hu).2 hrt)
      simp only [beq_iff_eq]
      exact fun hc => hne (hc.trans hh.symm)

theorem mem_insertDescBy {α : Type} (key : α → ℚ) (x y : α) (l : List α) :
    y ∈ insertDescBy key x l ↔ y = x ∨ y ∈ l := by
  induction l with
  | nil => simp [insertDescBy]
  | cons a t ih =>
    by_cases h : key a ≤ key x
    · simp [insertDescBy, h]
    · simp [insertDescBy, h, ih]
      tauto

theorem mem_sortDescBy {α : Type} (key : α → ℚ) (y : α) (l : List α) :
    y ∈ sortDescBy key l ↔ y ∈ l := by
  induction l with
  | nil => simp [sortDescBy]
  | cons a t ih =>
    simp [sortDescBy, mem_insertDescBy, ih]

/-!
## Claim C1 — the fingerprint is a unique key and the cache insert is an
idempotent no-op on conflict
-/

/-- **C1.** `_save_to_cache` keyed by `query_hash`: if a row with the
fingerprint of the incoming media already exists, the store is left exactly
as it was (the existing row stays, nothing is added, nothing raised), and
the insert preserves uniqueness of the `query_hash` column, so at most one
row per fingerprint ever exists. -/
theorem save_to_cache_unique_upsert (md5 : String → String) (m : MediaInfo)
    (up : UploadResult) (ft : String) (now newId : Nat) (store : List TelegramCache)
    (hu : store.Pairwise (fun x y => x.query_hash ≠ y.query_hash)) :
    ((∃ r ∈ store, r.query_hash = md5 (pyLower (cacheQueryOf m))) →
        save_to_cache md5 m up ft now newId store = store) ∧
    (save_to_cache md5 m up ft now newId store).Pairwise
      (fun x y => x.query_hash ≠ y.query_hash) := by
  constructor
  · intro ⟨r, hr, hh⟩
    have : (store.find? (fun e => e.query_hash == md5 (pyLower (cacheQueryOf m)))).isSome := by
      rw [List.find?_isSome]
      exact ⟨r, hr, by simp [hh]⟩
    simp [save_to_cache, save_to_cacheE, this]
  · simp only [save_to_cache, save_to_cacheE]
    split
    · exact hu
    · next hfind =>
      split
      · rw [List.pairwise_append]
        refine ⟨hu, by simp, ?_⟩
        intro x hx y hy
        simp only [List.mem_singleton] at hy
        subst hy
        have hnone : store.find? (fun e => e.query_hash == md5 (pyLower (cacheQueryOf m))) = none :=
          Option.not_isSome_iff_eq_none.mp hfind
        have := List.find?_eq_none.mp hnone x hx
        simpa using this
      · exact hu

/-- Concrete store row for the C1 witness. -/
def rC1w : TelegramCache :=
  { id := 1, query_hash := "hit me", original_query := "Hit Me", youtube_id := "",
    title := "Hit Me (Official)", duration := "3:21", file_id := "F1", file_unique_id := "U1",
    file_type := "audio", telegram_message_id := 10, created_at := 3, last_accessed := 3,
    access_count := 2 }

/-- Media payload for the C1 witness, fingerprinting to the stored row. -/
def mC1w : MediaInfo := ⟨some "Hit Me", some "Hit Me (Official)", none, none⟩

theorem save_to_cache_unique_upsert_witness :
    ([rC1w].Pairwise (fun x y => x.query_hash ≠ y.query_hash)) ∧
    save_to_cache (fun s => s) mC1w ⟨"F1", "U1", 10⟩ "audio" 7 2 [rC1w] = [rC1w] :=
  ⟨by simp,
   (save_to_cache_unique_upsert (fun s => s) mC1w ⟨"F1", "U1", 10⟩ "audio" 7 2 [rC1w]
      (by simp)).1 ⟨rC1w, by simp, by decide⟩⟩

/-!
## Claim C2 — the cascade short-circuits at the exact tier
-/

/-- **C2.** If some stored row's fingerprint equals the fingerprint of the
query (with `query_hash` unique across the store), `comprehensive_search`
returns exactly that row at tier `exact` with confidence `1.0` — the fuzzy
tiers are never consulted, whatever similarities other rows may have. -/
theorem comprehensive_search_exact_first (md5 : String → String) (q : String)
    (store : List TelegramCache) (r : TelegramCache)
    (hu : store.Pairwise (fun x y => x.query_hash ≠ y.query_hash))
    (hr : r ∈ store) (hh : r.query_hash = generate_query_hash md5 q) :
    comprehensive_search md5 q store = some ⟨r, .exact, 1⟩ := by
  have hf := find?_of_mem_unique store r (generate_query_hash md5 q) hu hr hh
  simp [comprehensive_search, hf]

/-- Concrete store row for the C2 witness: its fingerprint is the sanitized
query (digest taken as the identity), while a second row is similar but not
exact. -/
def rC2w : TelegramCache :=
  { id := 1, query_hash := "hello world", original_query := "whatever text",
    youtube_id := "", title := "t", duration := "", file_id := "F", file_unique_id := "U",
    file_type := "audio", telegram_message_id := 1, created_at := 0, last_accessed := 0,
    access_count := 0 }

def rC2w' : TelegramCache :=
  { rC2w with id := 2, query_hash := "other", original_query := "Hello, World" }

theorem comprehensive_search_exact_first_witness :
    rC2w ∈ [rC2w, rC2w'] ∧
    comprehensive_search (fun s => s) "Hello, World!!" [rC2w, rC2w'] =
      some ⟨rC2w, .exact, 1⟩ :=
  ⟨by simp,
   comprehensive_search_exact_first (fun s => s) "Hello, World!!" [rC2w, rC2w'] rC2w
     (by simp [rC2w, rC2w']) (by simp) (by decide)⟩

/-!
## Claim C7 — store failures on the cascade's read path
-/

/-- **C7 counterexample.**  A store failure during the match cascade is NOT
treated as a cache miss: `comprehensive_search` installs no handler, the
endpoint's catch-all answers HTTP 500 (`internalError`), and the request
never proceeds toward acquisition. -/
theorem store_failure_cex :
    extract_media_cachePhase (fun s => s) "test query" (.error ()) =
      ExtractOutcome.internalError ∧
    extract_media_cachePhase (fun s => s) "test query" (.error ()) ≠
      ExtractOutcome.proceedToExtraction :=
  ⟨rfl, by decide⟩

/-- **C7 amended.**  A failing store read inside the cascade aborts the
request with the endpoint's catch-all 500 error instead of falling through
to acquisition; a failing cache insert after acquisition is swallowed by
`_save_to_cache`'s handler: the session is rolled back (store unchanged) and
no error is surfaced to the caller. -/
theorem store_failure_amended :
    (∀ (md5 : String → String) (q : String),
        extract_media_cachePhase md5 q (.error ()) = ExtractOutcome.internalError) ∧
    (∀ (md5 : String → String) (m : MediaInfo) (up : UploadResult) (ft : String)
        (now newId : Nat) (store : List TelegramCache),
        save_to_cacheE md5 m up ft now newId false store = store) := by
  constructor
  · intro md5 q; rfl
  · intro md5 m up ft now newId store
    simp only [save_to_cacheE]
    split <;> simp

/-!
## Claim C10 — shape of `extract_youtube_id`
-/

theorem take11Ids_spec (cs g : List Char) (h : take11Ids cs = some g) :
    g.length = 11 ∧ g.all isIdChar = true := by
  simp only [take11Ids] at h
  split at h
  · next hcond =>
    cases h
    simp only [Bool.and_eq_true, decide_eq_true_eq] at hcond
    exact ⟨hcond.1, hcond.2⟩
  · cases h

theorem tryAlts_spec (ps : List (List Char)) :
    ∀ cs g, tryAlts ps cs = some g → g.length = 11 ∧ g.all isIdChar = true := by
  induction ps with
  | nil => intro cs g h; simp [tryAlts] at h
  | cons p ps ih =>
    intro cs g h
    simp only [tryAlts] at h
    by_cases hp : p.isPrefixOf cs = true
    · rw [if_pos hp] at h
      cases htake : take11Ids (cs.drop p.length) with
      | some g' => rw [htake] at h; cases h; exact take11Ids_spec _ _ htake
      | none => rw [htake] at h; exact ih cs g h
    · rw [if_neg hp] at h; exact ih cs g h

theorem searchP1_spec :
    ∀ cs g, searchP1 cs = some g → g.length = 11 ∧ g.all isIdChar = true := by
  intro cs
  induction cs with
  | nil => intro g h; simp [searchP1] at h
  | cons c t ih =>
    intro g h
    simp only [searchP1] at h
    cases h1 : tryAlts p1alts (c :: t) with
    | some g' => rw [h1] at h; cases h; exact tryAlts_spec _ _ _ h1
    | none => rw [h1] at h; exact ih g h

theorem tryP2At_spec (cs g : List Char) (h : tryP2At cs = some g) :
    g.length = 11 ∧ g.all isIdChar = true := by
  simp only [tryP2At] at h
  split at h
  · split at h
    · exact take11Ids_spec _ _ h
    · cases h
  · cases h

theorem searchP2_spec :
    ∀ cs g, searchP2 cs = some g → g.length = 11 ∧ g.all isIdChar = true := by
  intro cs
  induction cs with
  | nil => intro g h; simp [searchP2] at h
  | cons c t ih =>
    intro g h
    simp only [searchP2] at h
    cases h1 : tryP2At (c :: t) with
    | some g' => rw [h1] at h; cases h; exact tryP2At_spec _ _ h1
    | none => rw [h1] at h; exact ih g h

/-- A literal containing a character outside the id class is never a prefix
of an all-id-class string. -/
theorem prefix_not_of_bad_char (p cs : List Char) (c : Char) (hc : c ∈ p)
    (hbad : isIdChar c = false) (hall : cs.all isIdChar = true) :
    p.isPrefixOf cs = false := by
  by_contra hne
  rw [Bool.not_eq_false] at hne
  have hpre : p <+: cs := List.isPrefixOf_iff_prefix.mp hne
  have hmem : c ∈ cs := hpre.sublist.subset hc
  have := List.all_eq_true.mp hall c hmem
  rw [hbad] at this
  cases this

theorem tryAlts_all_id (cs : List Char) (hall : cs.all isIdChar = true) :
    tryAlts p1alts cs = none := by
  have h1 := prefix_not_of_bad_char "youtube.com/watch?v=".data cs '.'
    (by decide) (by decide) hall
  have h2 := prefix_not_of_bad_char "youtu.be/".data cs '.'
    (by decide) (by decide) hall
  have h3 := prefix_not_of_bad_char "youtube.com/embed/".data cs '.'
    (by decide) (by decide) hall
  simp [tryAlts, p1alts, h1, h2, h3]

theorem searchP1_all_id : ∀ cs, cs.all isIdChar = true → searchP1 cs = none := by
  intro cs
  induction cs with
  | nil => intro _; simp [searchP1]
  | cons c t ih =>
    intro hall
    have hct : t.all isIdChar = true := by
      simp only [List.all_cons, Bool.and_eq_true] at hall
      exact hall.2
    simp only [searchP1, tryAlts_all_id _ hall]
    exact ih hct

theorem tryP2At_all_id (cs : List Char) (hall : cs.all isIdChar = true) :
    tryP2At cs = none := by
  have h1 := prefix_not_of_bad_char p2lit cs '.' (by decide) (by decide) hall
  simp [tryP2At, h1]

theorem searchP2_all_id : ∀ cs, cs.all isIdChar = true → searchP2 cs = none := by
  intro cs
  induction cs with
  | nil => intro _; simp [searchP2]
  | cons c t ih =>
    intro hall
    have hct : t.all isIdChar = true := by
      simp only [List.all_cons, Bool.and_eq_true] at hall
      exact hall.2
    simp only [searchP2, tryP2At_all_id _ hall]
    exact ih hct

/-- **C10.** `extract_youtube_id` returns nothing or a string of exactly 11
characters drawn from letters, digits, underscore and hyphen; and an input
that is itself such an 11-character identifier is returned unchanged (the
URL patterns cannot fire on it, so the anchored full match does). -/
theorem extract_youtube_id_shape (url : String) :
    (∀ t, extract_youtube_id url = some t →
       t.length = 11 ∧ t.data.all isIdChar = true) ∧
    (url.length = 11 → url.data.all isIdChar = true →
       extract_youtube_id url = some url) := by
  constructor
  · intro t h
    simp only [extract_youtube_id] at h
    split at h
    · cases h
    · cases h1 : searchP1 url.data with
      | some g =>
        rw [h1] at h; cases h
        have := searchP1_spec _ _ h1
        exact ⟨this.1, this.2⟩
      | none =>
        rw [h1] at h
        cases h2 : searchP2 url.data with
        | some g =>
          rw [h2] at h; cases h
          have := searchP2_spec _ _ h2
          exact ⟨this.1, this.2⟩
        | none =>
          rw [h2] at h
          by_cases hcond : (decide (url.length = 11) && url.data.all isIdChar) = true
          · rw [if_pos hcond] at h
            cases h
            simp only [Bool.and_eq_true, decide_eq_true_eq] at hcond
            exact ⟨hcond.1, hcond.2⟩
          · rw [if_neg hcond] at h
            cases h
  · intro hlen hall
    have hne : ¬(url = "") := by
      intro he
      subst he
      simp [String.length] at hlen
    have h1 := searchP1_all_id url.data hall
    have h2 := searchP2_all_id url.data hall
    simp [extract_youtube_id, hne, h1, h2, hlen, hall]

theorem extract_youtube_id_shape_witness :
    ("dQw4w9WgXcQ" : String).length = 11 ∧
    ("dQw4w9WgXcQ" : String).data.all isIdChar = true ∧
    extract_youtube_id "dQw4w9WgXcQ" = some "dQw4w9WgXcQ" :=
  ⟨by decide, by decide,
   (extract_youtube_id_shape "dQw4w9WgXcQ").2 (by decide) (by decide)⟩

/-!
## Claim C3 — external-id identity shortcut
-/

/-- Store row for the C3 counterexample: it carries the queried identifier
as its `youtube_id`, and its `original_query` shares nothing with the
query. -/
def rC3cex : TelegramCache :=
  { id := 1, query_hash := "h1", original_query := "zzz qqq www",
    youtube_id := "abcdefgh_jk", title := "t", duration := "", file_id := "f",
    file_unique_id := "fu", file_type := "audio", telegram_message_id := 7,
    created_at := 0, last_accessed := 0, access_count := 0 }

/-- Helper: with no fingerprint match, all similarities below both fuzzy
thresholds, and fewer than two query keywords, the cascade finds nothing. -/
theorem comprehensive_search_none (md5 : String → String) (q : String)
    (store : List TelegramCache)
    (h1 : ∀ e ∈ store, e.query_hash ≠ generate_query_hash md5 q)
    (h2 : ∀ e ∈ store,
        ratio (sanitize_query q) (sanitize_query e.original_query) < 7/10 ∧
        ratio (sanitize_query q) (sanitize_query e.original_query) < 9/10)
    (h3 : (extract_keywords q).length < 2) :
    comprehensive_search md5 q store = none := by
  have hf : store.find? (fun r => r.query_hash == generate_query_hash md5 q) = none := by
    rw [List.find?_eq_none]
    intro x hx
    simpa using h1 x hx
  have hsim : ∀ th : ℚ,
      (∀ e ∈ store, ratio (sanitize_query q) (sanitize_query e.original_query) < th) →
      find_similar_queries q th store = [] := by
    intro th hth
    simp only [find_similar_queries]
    have hfil : ((store.map (fun e =>
        (⟨e, ratio (sanitize_query q) (sanitize_query e.original_query),
          e.original_query⟩ : SimilarEntry))).filter
        (fun x => decide (th ≤ x.similarity))) = [] := by
      rw [List.filter_eq_nil_iff]
      intro x hx
      obtain ⟨e, he, rfl⟩ := List.mem_map.mp hx
      simpa using not_le.mpr (hth e he)
    rw [hfil]
    rfl
  have hkw : match_by_keywords q 2 store = [] := by
    unfold match_by_keywords
    rw [if_pos h3]
  simp [comprehensive_search, hf, hsim _ (fun e he => (h2 e he).2),
        hsim _ (fun e he => (h2 e he).1), hkw]

/-- Helper: `_search_database_cache` misses when the hash lookup fails, the
query is not `isalnum`, no video id is extractable, and every row is below
both fuzzy thresholds. -/
theorem searchdb_none (md5 : String → String) (q : String) (store : List TelegramCache)
    (h1 : ∀ e ∈ store, e.query_hash ≠ md5 (pyLower q))
    (hguard : pyIsAlnum q = false)
    (hvid : _extract_video_id q = none)
    (hfz : ∀ e ∈ store,
        _calculate_similarity (pyLower q) (pyLower e.title) ≤ 3/5 ∧
        _calculate_similarity (pyLower q) (pyLower e.original_query) ≤ 7/10) :
    _search_database_cache md5 q store = none := by
  have hf1 : store.find? (fun r => r.query_hash == md5 (pyLower q)) = none := by
    rw [List.find?_eq_none]
    intro x hx
    simpa using h1 x hx
  have hf2 : store.find? (fun e =>
      decide ((3 : ℚ)/5 < _calculate_similarity (pyLower q) (pyLower e.title))
      || decide ((7 : ℚ)/10 < _calculate_similarity (pyLower q) (pyLower e.original_query))) = none := by
    rw [List.find?_eq_none]
    intro x hx
    simp only [Bool.or_eq_true, decide_eq_true_eq, not_or, not_lt]
    exact ⟨(hfz x hx).1, (hfz x hx).2⟩
  simp [_search_database_cache, hf1, hguard, hvid, hf2]

/-- **C3 counterexample.**  `"abcdefgh_jk"` is an 11-character
YouTube-style identifier and the stored record carries it as `youtube_id`,
yet the cascade (`comprehensive_search`) resolves to nothing — it has no
external-id tier at all; the alternate database path also misses, because
its guard uses `isalnum`, which rejects the underscore. -/
theorem external_id_shortcut_cex :
    rC3cex.youtube_id = "abcdefgh_jk" ∧
    ("abcdefgh_jk" : String).length = 11 ∧
    ("abcdefgh_jk" : String).data.all isIdChar = true ∧
    comprehensive_search (fun s => s) "abcdefgh_jk" [rC3cex] = none ∧
    _search_database_cache (fun s => s) "abcdefgh_jk" [rC3cex] = none := by
  have hr0 : ratio (sanitize_query "abcdefgh_jk") (sanitize_query "zzz qqq www") = 0 := by
    rw [show sanitize_query "abcdefgh_jk" = "abcdefgh_jk" from by decide,
        show sanitize_query "zzz qqq www" = "zzz qqq www" from by decide, ratio]
    have hm : matchSum "abcdefgh_jk".data "zzz qqq www".data 23 0 11 0 11 = 0 := by decide
    norm_num [hm]
  have ht0 : ratio (pyLower "abcdefgh_jk") (pyLower "t") = 0 := by
    rw [show pyLower "abcdefgh_jk" = "abcdefgh_jk" from by decide,
        show pyLower "t" = "t" from by decide, ratio]
    have hm : matchSum "abcdefgh_jk".data "t".data 13 0 11 0 1 = 0 := by decide
    norm_num [hm]
  have hq0 : ratio (pyLower "abcdefgh_jk") (pyLower "zzz qqq www") = 0 := by
    rw [show pyLower "abcdefgh_jk" = "abcdefgh_jk" from by decide,
        show pyLower "zzz qqq www" = "zzz qqq www" from by decide, ratio]
    have hm : matchSum "abcdefgh_jk".data "zzz qqq www".data 23 0 11 0 11 = 0 := by decide
    norm_num [hm]
  refine ⟨rfl, by decide, by decide, ?_, ?_⟩
  · apply comprehensive_search_none
    · intro e he
      simp only [List.mem_singleton] at he
      subst he
      decide
    · intro e he
      simp only [List.mem_singleton] at he
      subst he
      rw [show rC3cex.original_query = "zzz qqq www" from rfl, hr0]
      norm_num
    · decide
  · apply searchdb_none
    · intro e he
      simp only [List.mem_singleton] at he
      subst he
      decide
    · decide
    · decide
    · intro e he
      simp only [List.mem_singleton] at he
      subst he
      rw [show rC3cex.title = "t" from rfl, show rC3cex.original_query = "zzz qqq www" from rfl]
      unfold _calculate_similarity
      rw [ht0, hq0]
      norm_num

/-- **C3 amended.**  Only `_search_database_cache` (not the cascade)
attempts an external-id lookup, and only for queries that are 11 characters
and purely alphanumeric (`isalnum`: no underscore, no hyphen): when the
raw-lowercase hash misses and some row carries the query as `youtube_id`,
that row is returned — independent of its `original_query` text and before
any fuzzy comparison. -/
theorem external_id_lookup_amended (md5 : String → String) (q : String)
    (store : List TelegramCache) (r : TelegramCache)
    (h11 : q.length = 11) (haln : pyIsAlnum q = true)
    (hnohash : ∀ e ∈ store, e.query_hash ≠ md5 (pyLower q))
    (hfind : store.find? (fun e => e.youtube_id == q) = some r) :
    _search_database_cache md5 q store = some r := by
  have hh : store.find? (fun e => e.query_hash == md5 (pyLower q)) = none := by
    rw [List.find?_eq_none]
    intro x hx
    simp only [beq_iff_eq]
    exact hnohash x hx
  simp [_search_database_cache, hh, h11, haln, hfind]

/-- Store row for the C3 witness: purely alphanumeric external id. -/
def rC3w : TelegramCache :=
  { rC3cex with youtube_id := "dQw4w9WgXcQ", query_hash := "zz" }

theorem external_id_lookup_amended_witness :
    ("dQw4w9WgXcQ" : String).length = 11 ∧ pyIsAlnum "dQw4w9WgXcQ" = true ∧
    _search_database_cache (fun s => s) "dQw4w9WgXcQ" [rC3w] = some rC3w :=
  ⟨by decide, by decide,
   external_id_lookup_amended (fun s => s) "dQw4w9WgXcQ" [rC3w] rC3w
     (by decide) (by decide) (by decide) (by decide)⟩

/-!
## Claim C4 — normalization and the empty string
-/

/-- **C4 counterexample.**  On an input with no word or hyphen characters
the stop-word fallback does not help: every character is replaced by a
space and stripped away, and `sanitize_query` returns the empty string.
(The same happens on the empty input.) -/
theorem sanitize_query_empty_cex :
    sanitize_query "!!!" = "" ∧ sanitize_query "" = "" :=
  ⟨by decide, by decide⟩

theorem pySpace_chars (c : Char) (h : pySpace c = true) :
    c = ' ' ∨ c = '\t' ∨ c = '\n' ∨ c = '\r' ∨ c = '\x0b' ∨ c = '\x0c' := by
  simp only [pySpace, Bool.or_eq_true, beq_iff_eq] at h
  tauto

theorem keep_not_space (c : Char) (h : pyIsWord c = true ∨ c = '-') :
    pySpace c = false := by
  rcases h with h | h
  · by_contra hs
    rw [Bool.not_eq_false] at hs
    rcases pySpace_chars c hs with rfl | rfl | rfl | rfl | rfl | rfl <;>
      exact absurd h (by decide)
  · subst h; decide

theorem not_pySpace_pyToLower (c : Char) (h : pySpace c = false) :
    pySpace (pyToLower c) = false := by
  unfold pyToLower
  cases hf : ucPairs.find? (fun p => p.1 == c) with
  | none => simpa using h
  | some p =>
    have hp : p ∈ ucPairs := List.mem_of_find?_eq_some hf
    have hall : ∀ q ∈ ucPairs, pySpace q.2 = false := by decide
    simpa using hall p hp

theorem mem_collapseWsGo (c : Char) (hc : pySpace c = false) :
    ∀ (b : Bool) (l : List Char), c ∈ l → c ∈ collapseWsGo b l := by
  intro b l
  induction l generalizing b with
  | nil => intro h; cases h
  | cons x t ih =>
    intro h
    rcases List.mem_cons.mp h with rfl | hmem
    · rw [collapseWsGo, if_neg (by simp [hc])]
      exact List.mem_cons_self _ _
    · rw [collapseWsGo]
      by_cases hx : pySpace x = true
      · rw [if_pos hx]
        cases b with
        | false =>
          rw [if_neg (by simp)]
          exact List.mem_cons_of_mem _ (ih true hmem)
        | true =>
          rw [if_pos rfl]
          exact ih true hmem
      · rw [if_neg hx]
        exact List.mem_cons_of_mem _ (ih false hmem)

theorem mem_dropWhile_of_neg {α : Type} (p : α → Bool) (c : α) (hc : p c = false) :
    ∀ l : List α, c ∈ l → c ∈ l.dropWhile p := by
  intro l
  induction l with
  | nil => intro h; cases h
  | cons x t ih =>
    intro h
    rw [List.dropWhile_cons]
    rcases List.mem_cons.mp h with rfl | hmem
    · rw [if_neg (by simp [hc])]
      exact List.mem_cons_self _ _
    · by_cases hx : p x = true
      · rw [if_pos hx]
        exact ih hmem
      · rw [if_neg hx]
        exact List.mem_cons_of_mem _ hmem

theorem mem_pyStrip (c : Char) (hc : pySpace c = false) (l : List Char)
    (h : c ∈ l) : c ∈ pyStrip l := by
  unfold pyStrip
  rw [List.mem_reverse]
  apply mem_dropWhile_of_neg _ _ hc
  rw [List.mem_reverse]
  exact mem_dropWhile_of_neg _ _ hc _ h

theorem splitWsAux_words_ne (l : List Char) :
    ∀ (acc : List Char) (w : String), w ∈ splitWsAux l acc → w.data ≠ [] := by
  induction l with
  | nil =>
    intro acc w h
    simp only [splitWsAux] at h
    split at h
    · cases h
    · next hne =>
      simp only [List.mem_singleton] at h
      subst h
      simp only [List.isEmpty_eq_true] at hne
      simpa using hne
  | cons c t ih =>
    intro acc w h
    simp only [splitWsAux] at h
    by_cases hc : pySpace c = true
    · rw [if_pos hc] at h
      by_cases ha : acc.isEmpty = true
      · rw [if_pos ha] at h
        exact ih [] w h
      · rw [if_neg ha] at h
        rcases List.mem_cons.mp h with rfl | hmem
        · simp only [List.isEmpty_eq_true] at ha
          simpa using ha
        · exact ih [] w hmem
    · rw [if_neg hc] at h
      exact ih _ w h

theorem joinSp_ne (ws : List String) (hws : ∀ w ∈ ws, w.data ≠ [])
    (hne : ws ≠ []) : joinSp ws ≠ "" := by
  cases ws with
  | nil => exact absurd rfl hne
  | cons w t =>
    cases t with
    | nil =>
      intro h
      exact hws w (by simp) (by simpa using congrArg String.data h)
    | cons w2 t2 =>
      intro h
      have hd : (w ++ " " ++ joinSp (w2 :: t2)).data = [] := by
        rw [show joinSp (w :: w2 :: t2) = w ++ " " ++ joinSp (w2 :: t2) from rfl] at h
        simpa using congrArg String.data h
      rw [String.data_append, String.data_append] at hd
      rcases List.append_eq_nil.mp hd with ⟨hd1, _⟩
      rcases List.append_eq_nil.mp hd1 with ⟨_, hd3⟩
      simpa using congrArg List.length hd3

/-- **C4 amended.**  The stop-word fallback does hold: when the filter
removes every token, `sanitize_query` returns the pre-filter text.  But the
output is empty exactly when the input lacks word/hyphen characters: any
input containing a `\w` or `-` character normalizes to a nonempty string —
only then is an empty fingerprint key impossible. -/
theorem sanitize_query_fallback_amended :
    (∀ q : String,
       ((pySplit (sanitizePre q)).filter (fun w => !(stopWords.contains w))).isEmpty = true →
       sanitize_query q = sanitizePre q) ∧
    (∀ q : String, (∃ c ∈ q.data, pyIsWord c = true ∨ c = '-') →
       sanitize_query q ≠ "") := by
  constructor
  · intro q h
    simp only [sanitize_query]
    rw [if_pos h]
  · intro q hq
    obtain ⟨c, hc, hkeep⟩ := hq
    have hcs : pySpace c = false := keep_not_space c hkeep
    have h1 : c ∈ q.data.map
        (fun c => if pyIsWord c || pySpace c || c == '-' then c else ' ') := by
      refine List.mem_map.mpr ⟨c, hc, ?_⟩
      have hcond : (pyIsWord c || pySpace c || c == '-') = true := by
        rcases hkeep with h | h
        · simp [h]
        · simp [h]
      rw [if_pos hcond]
    have h2 := mem_collapseWsGo c hcs false _ h1
    have h3 : pyToLower c ∈ (collapseWsGo false (q.data.map
        (fun c => if pyIsWord c || pySpace c || c == '-' then c else ' '))).map pyToLower :=
      List.mem_map_of_mem _ h2
    have h4 : pySpace (pyToLower c) = false := not_pySpace_pyToLower c hcs
    have h5 := mem_pyStrip _ h4 _ h3
    have hpre : (sanitizePre q).data ≠ [] := by
      simp only [sanitizePre, collapseWs]
      intro he
      rw [he] at h5
      cases h5
    simp only [sanitize_query]
    by_cases hf : ((pySplit (sanitizePre q)).filter
        (fun w => !(stopWords.contains w))).isEmpty = true
    · rw [if_pos hf]
      intro h
      exact hpre (by simpa using congrArg String.data h)
    · rw [if_neg hf]
      apply joinSp_ne
      · intro w hw
        have hw' : w ∈ pySplit (sanitizePre q) := List.mem_of_mem_filter hw
        exact splitWsAux_words_ne _ _ _ hw'
      · intro hnil
        rw [hnil] at hf
        exact hf rfl

theorem sanitize_query_fallback_witness :
    (((pySplit (sanitizePre "The Song")).filter
        (fun w => !(stopWords.contains w))).isEmpty = true ∧
      sanitize_query "The Song" = sanitizePre "The Song") ∧
    ((∃ c ∈ ("abc" : String).data, pyIsWord c = true ∨ c = '-') ∧
      sanitize_query "abc" ≠ "") :=
  ⟨⟨by decide, sanitize_query_fallback_amended.1 "The Song" (by decide)⟩,
   ⟨by decide, sanitize_query_fallback_amended.2 "abc" (by decide)⟩⟩

/-!
## Analysis of `find_longest_match` on identical inputs

For `ratio a a = 1` (claim C9) the main loop must be shown to keep its best
match on the diagonal.  `surv a p` says position `p` of `a` survives the
autojunk deletion (so the pair `(p, p)` is examined); `runLen a p` is the
length of the maximal surviving run ending at `p`; `maxRun a i` its maximum
over rows before `i`; `rowCap a i` bounds every chain of the row before `i`.
-/

def surv (a : List Char) (p : Nat) : Bool :=
  decide (p < a.length) && !popularB a (a.getD p ' ')

def runLen (a : List Char) : Nat → Nat
  | 0 => if surv a 0 then 1 else 0
  | p + 1 => if surv a (p + 1) then runLen a p + 1 else 0

def maxRun (a : List Char) : Nat → Nat
  | 0 => 0
  | i + 1 => max (maxRun a i) (runLen a i)

def rowCap (a : List Char) : Nat → Nat
  | 0 => 0
  | i + 1 => runLen a i

theorem runLen_le (a : List Char) : ∀ p, runLen a p ≤ p + 1 := by
  intro p
  induction p with
  | zero => rw [runLen]; split <;> omega
  | succ p ih => rw [runLen]; split <;> omega

theorem runLen_pos (a : List Char) (p : Nat) (h : surv a p = true) :
    1 ≤ runLen a p := by
  cases p <;> simp [runLen, h]

theorem runLen_succ (a : List Char) (p : Nat) (h : surv a (p + 1) = true) :
    runLen a (p + 1) = runLen a p + 1 := by
  simp [runLen, h]

theorem runLen_zero_of (a : List Char) (p : Nat) (h : surv a p = false) :
    runLen a p = 0 := by
  cases p <;> simp [runLen, h]

theorem runLen_le_maxRun (a : List Char) (j i : Nat) (h : j < i) :
    runLen a j ≤ maxRun a i := by
  induction i with
  | zero => omega
  | succ i ih =>
    rw [maxRun]
    rcases Nat.lt_succ_iff_lt_or_eq.mp h with h' | rfl
    · exact le_trans (ih h') (le_max_left _ _)
    · exact le_max_right _ _

theorem mem_b2j_iff (b : List Char) (c : Char) (j : Nat) :
    j ∈ b2j b c ↔ popularB b c = false ∧ j < b.length ∧ b.getD j ' ' = c := by
  unfold b2j
  by_cases hp : popularB b c = true
  · simp [hp]
  · rw [Bool.not_eq_true] at hp
    simp [hp, idxList, List.mem_filter, List.mem_range]

theorem surv_of_mem_b2j (a : List Char) (i j : Nat)
    (h : j ∈ b2j a (a.getD i ' ')) :
    surv a j = true ∧ a.getD j ' ' = a.getD i ' ' := by
  obtain ⟨hpop, hlt, heq⟩ := (mem_b2j_iff _ _ _).mp h
  refine ⟨?_, heq⟩
  rw [surv, heq, hpop]
  simpa using hlt

theorem surv_row_of_mem_b2j (a : List Char) (i j : Nat) (hi : i < a.length)
    (h : j ∈ b2j a (a.getD i ' ')) : surv a i = true := by
  obtain ⟨hpop, _, _⟩ := (mem_b2j_iff _ _ _).mp h
  rw [surv, hpop]
  simpa using hi

theorem diag_mem_b2j (a : List Char) (i : Nat) (hi : i < a.length)
    (hnp : popularB a (a.getD i ' ') = false) : i ∈ b2j a (a.getD i ' ') :=
  (mem_b2j_iff _ _ _).mpr ⟨hnp, hi, rfl⟩

theorem takeWhile_all {α : Type} (p : α → Bool) :
    ∀ l : List α, (∀ x ∈ l, p x = true) → l.takeWhile p = l := by
  intro l h
  exact List.takeWhile_eq_self_iff.mpr h

/-- In the full window `blo = 0`, `bhi = b.length` neither the `continue`
nor the `break` filter removes any column. -/
theorem js_full (a : List Char) (i : Nat) :
    ((b2j a (a.getD i ' ')).filter (fun j => decide (0 ≤ j))).takeWhile
      (fun j => decide (j < a.length)) = b2j a (a.getD i ' ') := by
  have h1 : (b2j a (a.getD i ' ')).filter (fun j => decide (0 ≤ j)) =
      b2j a (a.getD i ' ') := by
    rw [List.filter_eq_self]
    intro j _
    simp
  rw [h1]
  apply takeWhile_all
  intro j hj
  obtain ⟨_, hlt, _⟩ := (mem_b2j_iff _ _ _).mp hj
  simpa using hlt

/-- The surviving columns of a non-junk row, split around the diagonal. -/
theorem b2j_split (a : List Char) (i : Nat) (hi : i < a.length)
    (hnp : popularB a (a.getD i ' ') = false) :
    b2j a (a.getD i ' ') =
      ((List.range' 0 i).filter (fun j => a.getD j ' ' == a.getD i ' ')) ++
      i :: ((List.range' (i + 1) (a.length - (i + 1))).filter
        (fun j => a.getD j ' ' == a.getD i ' ')) := by
  have hb : b2j a (a.getD i ' ') =
      (List.range a.length).filter (fun j => a.getD j ' ' == a.getD i ' ') := by
    unfold b2j
    rw [if_neg (by rw [hnp]; exact Bool.false_ne_true)]
    rfl
  rw [hb, List.range_eq_range']
  have hsplit : List.range' 0 a.length =
      List.range' 0 i ++ i :: List.range' (i + 1) (a.length - (i + 1)) := by
    have h1 : List.range' 0 i ++ List.range' (0 + 1 * i) (a.length - i) 1 =
        List.range' 0 (a.length - i + i) 1 := List.range'_append 0 i (a.length - i) 1
    simp only [Nat.zero_add, Nat.one_mul] at h1
    rw [Nat.sub_add_cancel (le_of_lt hi)] at h1
    rw [← h1]
    congr 1
    have h2 : a.length - i = (a.length - (i + 1)) + 1 := by omega
    rw [h2, List.range'_succ]
  rw [hsplit, List.filter_append, List.filter_cons]
  simp

/-- Invariant carried by the previous row's `j2len`: every chain is bounded
by the surviving run ending at its column, by the run ending at the previous
row, and the diagonal chain is exact. -/
def prevInv (a : List Char) (i : Nat) (prev : Nat → Nat) : Prop :=
  (∀ j, prev j ≤ runLen a j) ∧ (∀ j, prev j ≤ rowCap a i) ∧
  (∀ i', i = i' + 1 → prev i' = runLen a i')

/-- Invariant on the row being built. -/
def curBound (a : List Char) (i : Nat) (cur : Nat → Nat) : Prop :=
  ∀ j, cur j ≤ runLen a j ∧ cur j ≤ runLen a i

theorem step_k_bounds (a : List Char) (i j : Nat) (prev : Nat → Nat)
    (hprev : prevInv a i prev) (hj : j ∈ b2j a (a.getD i ' ')) (hi : i < a.length) :
    (if j = 0 then 0 else prev (j - 1)) + 1 ≤ runLen a j ∧
    (if j = 0 then 0 else prev (j - 1)) + 1 ≤ runLen a i := by
  obtain ⟨hb1, hb2, _⟩ := hprev
  have hsj : surv a j = true := (surv_of_mem_b2j a i j hj).1
  have hsi : surv a i = true := surv_row_of_mem_b2j a i j hi hj
  constructor
  · cases j with
    | zero => simpa using runLen_pos a 0 hsj
    | succ j' =>
      rw [if_neg (Nat.succ_ne_zero j'), runLen_succ a j' hsj]
      simp only [Nat.succ_sub_one]
      exact Nat.add_le_add_right (hb1 j') 1
  · cases i with
    | zero =>
      have h1 : (if j = 0 then 0 else prev (j - 1)) = 0 := by
        split
        · rfl
        · exact Nat.le_zero.mp (hb2 (j - 1))
      rw [h1]
      exact runLen_pos a 0 hsi
    | succ i' =>
      have h2 : (if j = 0 then 0 else prev (j - 1)) ≤ runLen a i' := by
        split
        · exact Nat.zero_le _
        · exact hb2 (j - 1)
      rw [runLen_succ a i' hsi]
      omega

/-- Folding columns whose chains cannot beat the current best leaves the
best match untouched and keeps the row bounds. -/
theorem fold_no_update (a : List Char) (i : Nat) (prev : Nat → Nat)
    (hi : i < a.length) (hprev : prevInv a i prev) :
    ∀ (L : List Nat) (st : RowSt),
      (∀ j ∈ L, j ∈ b2j a (a.getD i ' ')) →
      (∀ j ∈ L, min (runLen a j) (runLen a i) ≤ st.bs) →
      curBound a i st.cur →
      (L.foldl (innerStep i prev) st).bi = st.bi ∧
      (L.foldl (innerStep i prev) st).bj = st.bj ∧
      (L.foldl (innerStep i prev) st).bs = st.bs ∧
      curBound a i (L.foldl (innerStep i prev) st).cur ∧
      (∀ j', j' ∉ L → (L.foldl (innerStep i prev) st).cur j' = st.cur j') := by
  intro L
  induction L with
  | nil => intro st _ _ hc; exact ⟨rfl, rfl, rfl, hc, fun _ _ => rfl⟩
  | cons j L ih =>
    intro st hmem hbs hc
    have hjb := hmem j (List.mem_cons_self _ _)
    have hk := step_k_bounds a i j prev hprev hjb hi
    have hkmin : (if j = 0 then 0 else prev (j - 1)) + 1 ≤
        min (runLen a j) (runLen a i) := le_min hk.1 hk.2
    have hnlt : ¬ (st.bs < (if j = 0 then 0 else prev (j - 1)) + 1) := by
      have := hbs j (List.mem_cons_self _ _)
      omega
    have hstep : innerStep i prev st j =
        ⟨fun j' => if j' = j then (if j = 0 then 0 else prev (j - 1)) + 1
          else st.cur j', st.bi, st.bj, st.bs⟩ := by
      simp only [innerStep]
      rw [if_neg hnlt]
    rw [List.foldl_cons, hstep]
    have hcb' : curBound a i (fun j' =>
        if j' = j then (if j = 0 then 0 else prev (j - 1)) + 1 else st.cur j') := by
      intro j'
      by_cases hj' : j' = j
      · subst hj'
        simp only [if_pos rfl]
        exact ⟨hk.1, hk.2⟩
      · simp only [if_neg hj']
        exact hc j'
    obtain ⟨h1, h2, h3, h4, h5⟩ := ih
      ⟨fun j' => if j' = j then (if j = 0 then 0 else prev (j - 1)) + 1 else st.cur j',
        st.bi, st.bj, st.bs⟩
      (fun j hj => hmem j (List.mem_cons_of_mem _ hj))
      (fun j hj => hbs j (List.mem_cons_of_mem _ hj))
      hcb'
    refine ⟨h1, h2, h3, h4, ?_⟩
    intro j' hj'
    have hj'ne : j' ≠ j := fun h => hj' (h ▸ List.mem_cons_self _ _)
    rw [h5 j' (fun h => hj' (List.mem_cons_of_mem _ h))]
    simp [hj'ne]

/-- Processing the diagonal column: the computed chain is exactly
`runLen a i`, and any best-match update stays on the diagonal. -/
theorem diag_step (a : List Char) (i : Nat) (prev : Nat → Nat) (st : RowSt)
    (hi : i < a.length) (hprev : prevInv a i prev) (hsurv : surv a i = true)
    (hbi : st.bi = st.bj) (hbnd : st.bi + st.bs ≤ a.length)
    (hcb : curBound a i st.cur) :
    (innerStep i prev st i).bi = (innerStep i prev st i).bj ∧
    (innerStep i prev st i).bi + (innerStep i prev st i).bs ≤ a.length ∧
    st.bs ≤ (innerStep i prev st i).bs ∧
    runLen a i ≤ (innerStep i prev st i).bs ∧
    (innerStep i prev st i).cur i = runLen a i ∧
    curBound a i (innerStep i prev st i).cur := by
  have hk : (if i = 0 then 0 else prev (i - 1)) + 1 = runLen a i := by
    cases i with
    | zero => simp [runLen, hsurv]
    | succ i' =>
      rw [if_neg (Nat.succ_ne_zero i')]
      simp only [Nat.succ_sub_one]
      rw [hprev.2.2 i' rfl, runLen_succ a i' hsurv]
  have hcb' : curBound a i (fun j' => if j' = i then runLen a i else st.cur j') := by
    intro j'
    by_cases hj' : j' = i
    · subst hj'
      simp only [if_pos rfl]
      exact ⟨le_rfl, le_rfl⟩
    · simp only [if_neg hj']
      exact hcb j'
  simp only [innerStep, hk]
  by_cases hlt : st.bs < runLen a i
  · rw [if_pos hlt]
    refine ⟨rfl, ?_, le_of_lt hlt, le_rfl, by simp, hcb'⟩
    have := runLen_le a i
    simp only
    omega
  · rw [if_neg hlt]
    exact ⟨hbi, hbnd, le_rfl, not_lt.mp hlt, by simp, hcb'⟩

/-- One full row of the main loop on identical strings keeps the best match
diagonal and window-bounded, and produces an exact previous-row invariant
for the next row. -/
theorem row_inv (a : List Char) (i : Nat) (hi : i < a.length) (st : FlmSt)
    (hprev : prevInv a i st.prev)
    (hbi : st.bi = st.bj) (hbnd : st.bi + st.bs ≤ a.length)
    (hmax : maxRun a i ≤ st.bs) :
    prevInv a (i + 1) (rowStep a a 0 a.length st i).prev ∧
    (rowStep a a 0 a.length st i).bi = (rowStep a a 0 a.length st i).bj ∧
    (rowStep a a 0 a.length st i).bi + (rowStep a a 0 a.length st i).bs ≤ a.length ∧
    maxRun a (i + 1) ≤ (rowStep a a 0 a.length st i).bs := by
  simp only [rowStep, js_full]
  by_cases hnp : popularB a (a.getD i ' ') = true
  · have hempty : b2j a (a.getD i ' ') = [] := by
      unfold b2j
      rw [if_pos hnp]
    have hsurv : surv a i = false := by
      rw [surv, hnp]
      simp
    rw [hempty]
    simp only [List.foldl_nil]
    refine ⟨⟨fun j => Nat.zero_le _, fun j => Nat.zero_le _, fun i' hi' => ?_⟩,
      hbi, hbnd, ?_⟩
    · have : i' = i := by omega
      subst this
      rw [runLen_zero_of a i' hsurv]
    · rw [maxRun, runLen_zero_of a i hsurv]
      simpa using hmax
  · rw [Bool.not_eq_true] at hnp
    have hsurv : surv a i = true := by
      rw [surv, hnp]
      simpa using hi
    rw [b2j_split a i hi hnp]
    have hL1mem : ∀ j ∈ (List.range' 0 i).filter
        (fun j => a.getD j ' ' == a.getD i ' '),
        j ∈ b2j a (a.getD i ' ') ∧ j < i := by
      intro j hj
      rw [List.mem_filter] at hj
      have hjlt : j < i := by
        obtain ⟨k, hk, rfl⟩ := List.mem_range'.mp hj.1
        omega
      exact ⟨(mem_b2j_iff _ _ _).mpr ⟨hnp, lt_trans hjlt hi, by simpa using hj.2⟩, hjlt⟩
    have hL2mem : ∀ j ∈ (List.range' (i + 1) (a.length - (i + 1))).filter
        (fun j => a.getD j ' ' == a.getD i ' '),
        j ∈ b2j a (a.getD i ' ') ∧ i < j := by
      intro j hj
      rw [List.mem_filter] at hj
      obtain ⟨k, hk, rfl⟩ := List.mem_range'.mp hj.1
      refine ⟨(mem_b2j_iff _ _ _).mpr ⟨hnp, by omega, by simpa using hj.2⟩, by omega⟩
    rw [List.foldl_append, List.foldl_cons]
    obtain ⟨e1bi, e1bj, e1bs, e1cb, _⟩ := fold_no_update a i st.prev hi hprev
      ((List.range' 0 i).filter (fun j => a.getD j ' ' == a.getD i ' '))
      ⟨fun _ => 0, st.bi, st.bj, st.bs⟩
      (fun j hj => (hL1mem j hj).1)
      (fun j hj => le_trans (le_trans (min_le_left _ _)
        (runLen_le_maxRun a j i (hL1mem j hj).2)) hmax)
      (fun j => ⟨Nat.zero_le _, Nat.zero_le _⟩)
    obtain ⟨d1, d2, d3, d4, d5, d6⟩ := diag_step a i st.prev
      (((List.range' 0 i).filter (fun j => a.getD j ' ' == a.getD i ' ')).foldl
        (innerStep i st.prev) ⟨fun _ => 0, st.bi, st.bj, st.bs⟩)
      hi hprev hsurv (by rw [e1bi, e1bj, hbi]) (by rw [e1bi, e1bs]; exact hbnd) e1cb
    obtain ⟨e3bi, e3bj, e3bs, e3cb, e3frame⟩ := fold_no_update a i st.prev hi hprev
      ((List.range' (i + 1) (a.length - (i + 1))).filter
        (fun j => a.getD j ' ' == a.getD i ' '))
      (innerStep i st.prev
        (((List.range' 0 i).filter (fun j => a.getD j ' ' == a.getD i ' ')).foldl
          (innerStep i st.prev) ⟨fun _ => 0, st.bi, st.bj, st.bs⟩) i)
      (fun j hj => (hL2mem j hj).1)
      (fun j hj => le_trans (min_le_right _ _) d4)
      d6
    refine ⟨⟨fun j => (e3cb j).1, fun j => (e3cb j).2, fun i' hi' => ?_⟩, ?_, ?_, ?_⟩
    · have : i' = i := by omega
      subst this
      rw [e3frame i' (fun hmem => by
        have := (hL2mem i' hmem).2
        omega)]
      exact d5
    · rw [e3bi, e3bj]
      exact d1
    · rw [e3bi, e3bs]
      exact d2
    · rw [e3bs, maxRun]
      apply max_le
      · calc maxRun a i ≤ st.bs := hmax
          _ ≤ _ := by
            have h := d3
            rw [e1bs] at h
            exact h
      · exact d4

/-- The whole main loop on identical strings: the best match is diagonal
and window-bounded. -/
theorem flm_inv (a : List Char) :
    ∀ m, m ≤ a.length →
      prevInv a m ((List.range' 0 m).foldl (rowStep a a 0 a.length)
        ⟨fun _ => 0, 0, 0, 0⟩).prev ∧
      ((List.range' 0 m).foldl (rowStep a a 0 a.length)
        ⟨fun _ => 0, 0, 0, 0⟩).bi =
        ((List.range' 0 m).foldl (rowStep a a 0 a.length)
          ⟨fun _ => 0, 0, 0, 0⟩).bj ∧
      ((List.range' 0 m).foldl (rowStep a a 0 a.length)
        ⟨fun _ => 0, 0, 0, 0⟩).bi +
        ((List.range' 0 m).foldl (rowStep a a 0 a.length)
          ⟨fun _ => 0, 0, 0, 0⟩).bs ≤ a.length ∧
      maxRun a m ≤ ((List.range' 0 m).foldl (rowStep a a 0 a.length)
        ⟨fun _ => 0, 0, 0, 0⟩).bs := by
  intro m
  induction m with
  | zero =>
    intro _
    exact ⟨⟨fun j => Nat.zero_le _, fun j => Nat.zero_le _,
      fun i' hi' => by omega⟩, rfl, Nat.zero_le _, le_rfl⟩
  | succ m ih =>
    intro hm
    have hm' : m ≤ a.length := by omega
    have hmlt : m < a.length := by omega
    obtain ⟨h1, h2, h3, h4⟩ := ih hm'
    have hconcat : List.range' 0 (m + 1) = List.range' 0 m ++ [m] := by
      have := @List.range'_concat 1 0 m
      simpa using this
    rw [hconcat, List.foldl_append, List.foldl_cons, List.foldl_nil]
    exact row_inv a m hmlt _ h1 h2 h3 h4

/-- The left extension on identical strings drags a diagonal match to the
window start. -/
theorem extLeft_diag (a : List Char) : ∀ (t s : Nat),
    extLeft a a 0 0 t (t, t, s) = (0, 0, s + t) := by
  intro t
  induction t with
  | zero => intro s; rfl
  | succ t ih =>
    intro s
    rw [extLeft]
    rw [if_pos ⟨Nat.succ_pos t, Nat.succ_pos t, rfl⟩]
    simp only [Nat.add_sub_cancel]
    rw [ih (s + 1)]
    have heq : s + 1 + t = s + (t + 1) := by omega
    rw [heq]

/-- The right extension on identical strings drags a diagonal match from
the window start to the window end. -/
theorem extRight_diag (a : List Char) :
    ∀ (fuel s : Nat), a.length - s ≤ fuel → s ≤ a.length →
      extRight a a a.length a.length fuel (0, 0, s) = (0, 0, a.length) := by
  intro fuel
  induction fuel with
  | zero =>
    intro s h1 h2
    have : s = a.length := by omega
    subst this
    rfl
  | succ fuel ih =>
    intro s h1 h2
    by_cases hs : s < a.length
    · rw [extRight]
      rw [if_pos ⟨by omega, by omega, rfl⟩]
      exact ih (s + 1) (by omega) (by omega)
    · have : s = a.length := by omega
      subst this
      rw [extRight]
      rw [if_neg (by omega)]

/-- `find_longest_match` of a string against itself over the full window is
the whole string. -/
theorem flm_self (a : List Char) :
    find_longest_match a a 0 a.length 0 a.length = (0, 0, a.length) := by
  obtain ⟨-, h2, h3, -⟩ := flm_inv a a.length le_rfl
  unfold find_longest_match flmMain
  simp only [Nat.sub_zero]
  set st := (List.range' 0 a.length).foldl (rowStep a a 0 a.length)
    ⟨fun _ => 0, 0, 0, 0⟩ with hst
  rw [show (st.bi, st.bj, st.bs) = (st.bi, st.bi, st.bs) from by rw [← h2]]
  rw [extLeft_diag a st.bi st.bs]
  exact extRight_diag a a.length (st.bs + st.bi) (by omega) (by omega)

theorem matchSum_self (a : List Char) (fuel : Nat) (hf : 1 ≤ fuel) :
    matchSum a a fuel 0 a.length 0 a.length = a.length := by
  cases fuel with
  | zero => omega
  | succ fuel =>
    rw [matchSum, flm_self]
    by_cases h : a.length = 0
    · simp [h]
    · simp [h]

/-- `SequenceMatcher` ratio of any string against itself is exactly 1. -/
theorem ratio_self (a : String) : ratio a a = 1 := by
  rw [ratio]
  by_cases h : a.data.length + a.data.length = 0
  · rw [if_pos h]
  · rw [if_neg h]
    rw [matchSum_self a.data _ (by omega)]
    have h0 : 0 < a.data.length := by omega
    have hda : ((a.data.length : ℚ) + a.data.length) ≠ 0 := by
      have : (0 : ℚ) < (a.data.length : ℚ) + a.data.length := by
        exact_mod_cast Nat.add_pos_left h0 _
      exact ne_of_gt this
    rw [div_eq_one_iff_eq hda]
    ring

theorem getD_mem_of_lt (l : List Char) (i : Nat) (h : i < l.length) :
    l.getD i ' ' ∈ l := by
  rw [List.getD_eq_getElem l ' ' h]
  exact List.getElem_mem h

/-- With no shared characters, every `b2j` bucket consulted by the main
loop is empty. -/
theorem b2j_disjoint (a b : List Char) (hd : ∀ c ∈ a, c ∉ b) (i : Nat)
    (hi : i < a.length) : b2j b (a.getD i ' ') = [] := by
  have hidx : idxList b (a.getD i ' ') = [] := by
    rw [idxList, List.filter_eq_nil_iff]
    intro j hj
    rw [List.mem_range] at hj
    simp only [beq_iff_eq]
    intro heq
    exact hd (a.getD i ' ') (getD_mem_of_lt a i hi) (heq ▸ getD_mem_of_lt b j hj)
  unfold b2j
  split
  · rfl
  · exact hidx

theorem flmMain_disjoint (a b : List Char) (hd : ∀ c ∈ a, c ∉ b) :
    ∀ m, m ≤ a.length →
      (List.range' 0 m).foldl (rowStep a b 0 b.length) ⟨fun _ => 0, 0, 0, 0⟩ =
        ⟨fun _ => 0, 0, 0, 0⟩ := by
  intro m
  induction m with
  | zero => intro _; rfl
  | succ m ih =>
    intro hm
    have hconcat : List.range' 0 (m + 1) = List.range' 0 m ++ [m] := by
      have := @List.range'_concat 1 0 m
      simpa using this
    rw [hconcat, List.foldl_append, List.foldl_cons, List.foldl_nil, ih (by omega)]
    simp only [rowStep, b2j_disjoint a b hd m (by omega)]
    rfl

theorem flm_disjoint (a b : List Char) (hd : ∀ c ∈ a, c ∉ b) :
    find_longest_match a b 0 a.length 0 b.length = (0, 0, 0) := by
  unfold find_longest_match flmMain
  simp only [Nat.sub_zero]
  rw [flmMain_disjoint a b hd a.length le_rfl]
  show extRight a b a.length b.length a.length (0, 0, 0) = (0, 0, 0)
  cases hl : a.length with
  | zero => rfl
  | succ n =>
    have hcond : ¬(0 + 0 < n + 1 ∧ 0 + 0 < b.length ∧
        a.getD (0 + 0) ' ' = b.getD (0 + 0) ' ') := by
      rintro ⟨h1, h2, h3⟩
      simp only [Nat.add_zero, Nat.zero_add] at h2 h3
      have ha : 0 < a.length := by omega
      exact hd (a.getD 0 ' ') (getD_mem_of_lt a 0 ha)
        (h3 ▸ getD_mem_of_lt b 0 h2)
    rw [extRight, if_neg hcond]

/-- `SequenceMatcher` ratio of two strings sharing no characters is exactly
0 — unless both are empty, where the `T = 0` branch answers 1. -/
theorem ratio_disjoint (a b : String) (hd : ∀ c ∈ a.data, c ∉ b.data)
    (hne : ¬(a.data = [] ∧ b.data = [])) : ratio a b = 0 := by
  rw [ratio]
  have hlen : a.data.length + b.data.length ≠ 0 := by
    intro h
    exact hne ⟨List.eq_nil_of_length_eq_zero (by omega),
      List.eq_nil_of_length_eq_zero (by omega)⟩
  rw [if_neg hlen]
  have hm : matchSum a.data b.data (a.data.length + b.data.length + 1)
      0 a.data.length 0 b.data.length = 0 := by
    rw [matchSum, flm_disjoint a.data b.data hd]
    simp
  rw [hm]
  simp

/-!
## Claim C9 — properties of the similarity metric
-/

/-- **C9 counterexample.**  The metric is not symmetric:
`similarity("tide", "diet") = 0.25` while `similarity("diet", "tide") = 0.5`
(the junk-free longest-match choice depends on the argument order).
Moreover two empty strings share no characters yet score `1.0`, not `0.0`. -/
theorem similarity_not_symmetric_cex :
    _calculate_similarity "tide" "diet" = 1/4 ∧
    _calculate_similarity "diet" "tide" = 1/2 ∧
    _calculate_similarity "tide" "diet" ≠ _calculate_similarity "diet" "tide" ∧
    (∀ c ∈ ("" : String).data, c ∉ ("" : String).data) ∧
    _calculate_similarity "" "" = 1 := by
  have h1 : _calculate_similarity "tide" "diet" = 1/4 := by
    unfold _calculate_similarity
    rw [ratio]
    have hm : matchSum "tide".data "diet".data 9 0 4 0 4 = 1 := by decide
    norm_num [hm]
  have h2 : _calculate_similarity "diet" "tide" = 1/2 := by
    unfold _calculate_similarity
    rw [ratio]
    have hm : matchSum "diet".data "tide".data 9 0 4 0 4 = 2 := by decide
    norm_num [hm]
  exact ⟨h1, h2, by rw [h1, h2]; norm_num, by simp, ratio_self ""⟩

/-- **C9 amended.**  The metric returns exactly 1.0 on identical strings,
and exactly 0.0 on strings sharing no characters provided they are not both
empty; symmetry does not hold. -/
theorem similarity_metric_amended :
    (∀ a : String, _calculate_similarity a a = 1) ∧
    (∀ a b : String, (∀ c ∈ a.data, c ∉ b.data) →
       ¬(a.data = [] ∧ b.data = []) → _calculate_similarity a b = 0) :=
  ⟨fun a => ratio_self a, fun a b hd hne => ratio_disjoint a b hd hne⟩

theorem similarity_metric_amended_witness :
    (∀ c ∈ ("ab" : String).data, c ∉ ("cd" : String).data) ∧
    _calculate_similarity "xy" "xy" = 1 ∧
    _calculate_similarity "ab" "cd" = 0 :=
  ⟨by decide, similarity_metric_amended.1 "xy",
   similarity_metric_amended.2 "ab" "cd" (by decide) (by decide)⟩

/-!
## Claim C8 — the tier-2 threshold is inclusive
-/

/-- **C8.**  A stored row enters the tier-2 candidate list exactly when its
similarity to the query is at least `0.9`: the comparison of
`find_similar_queries` is `similarity >= threshold`, so a similarity of
exactly `0.9` is accepted while anything strictly below is excluded from
tier 2 (falling through to the keyword and low-similarity tiers). -/
theorem tier2_threshold_inclusive (q : String) (store : List TelegramCache)
    (e : TelegramCache) (he : e ∈ store) :
    ((9 : ℚ)/10 ≤ ratio (sanitize_query q) (sanitize_query e.original_query) ↔
      ∃ x ∈ find_similar_queries q (9/10) store, x.cache_entry = e ∧
        x.similarity = ratio (sanitize_query q) (sanitize_query e.original_query)) := by
  constructor
  · intro hth
    refine ⟨⟨e, ratio (sanitize_query q) (sanitize_query e.original_query),
      e.original_query⟩, ?_, rfl, rfl⟩
    simp only [find_similar_queries]
    rw [mem_sortDescBy, List.mem_filter]
    exact ⟨List.mem_map.mpr ⟨e, he, rfl⟩, by simpa using hth⟩
  · rintro ⟨x, hx, hxe, hxs⟩
    simp only [find_similar_queries] at hx
    rw [mem_sortDescBy, List.mem_filter] at hx
    have h2 := hx.2
    rw [hxs] at h2
    simpa using h2

/-- Concrete row for the C8 witness: similarity to the query is exactly
`2 × 9 / (10 + 10) = 0.9`. -/
def rC8w : TelegramCache :=
  { id := 1, query_hash := "h", original_query := "abcdefghiz", youtube_id := "",
    title := "t", duration := "", file_id := "F", file_unique_id := "U",
    file_type := "audio", telegram_message_id := 1, created_at := 0,
    last_accessed := 0, access_count := 0 }

theorem tier2_threshold_inclusive_witness :
    rC8w ∈ [rC8w] ∧
    ratio (sanitize_query "abcdefghij") (sanitize_query rC8w.original_query) = 9/10 ∧
    (∃ x ∈ find_similar_queries "abcdefghij" (9/10) [rC8w], x.cache_entry = rC8w ∧
      x.similarity = ratio (sanitize_query "abcdefghij") (sanitize_query rC8w.original_query)) := by
  have hval : ratio (sanitize_query "abcdefghij") (sanitize_query rC8w.original_query) = 9/10 := by
    rw [show sanitize_query "abcdefghij" = "abcdefghij" from by decide,
        show sanitize_query rC8w.original_query = "abcdefghiz" from by decide, ratio]
    have hm : matchSum "abcdefghij".data "abcdefghiz".data 21 0 10 0 10 = 9 := by decide
    norm_num [hm]
  refine ⟨by simp, hval, ?_⟩
  exact (tier2_threshold_inclusive "abcdefghij" [rC8w] rC8w (by simp)).mp
    (by rw [hval])

/-!
## Claim C6 — tie-breaking within a tier
-/

